import Mathlib

/-!
# Verification of the Fast Loaded Dice Roller (FLDR) crate

Shallow embedding of `src/lib.rs` from the `fast_loaded_dice_roller` Rust crate:
the DDG-tree builder `Generator::new` and the traversal sampler `Generator::sample`.

Machine integers (`usize`) are modelled as `Nat`; the claims about the builder
restrict attention to inputs whose weight sum does not overflow, where `usize`
arithmetic and `Nat` arithmetic agree.  A separate wrapping model (`sumWrap`,
`Generator.newWrap`) captures release-profile `usize` arithmetic (mod `2 ^ 64`)
for the overflow claim.  Rust panics (the `assert!` in `new`, index-out-of-bounds
in `sample`) are modelled as error values: `new` returns `Except`, and `sample`
returns a dedicated `fault` result for an out-of-bounds matrix read.

The fair coin consumed by `sample` is modelled by an explicit list of flips
(the sampler is deterministic in the flip sequence); running out of flips while
still traversing is reported as `outOfFlips`.
-/

set_option autoImplicit false

/-- Rust's `u.ilog2()` (floor of the base-2 logarithm), embedded with explicit
fuel so that it is structurally recursive and kernel-reducible.
`ilog2F fuel n` computes `floor (log2 n)` provided `n ≤ fuel`; `ilog2 n` uses
`n` itself as fuel.  (Rust's `ilog2` panics on `0`; the builder only calls it
after the two-positive-weights assertion, which forces a positive sum.) -/
def ilog2F : Nat → Nat → Nat
  | 0, _ => 0
  | fuel + 1, n => if 2 ≤ n then ilog2F fuel (n / 2) + 1 else 0

/-- Floor base-2 logarithm, agreeing with `usize::ilog2` on positive inputs. -/
def ilog2 (n : Nat) : Nat := ilog2F n n

/-- Rust's `usize::is_power_of_two` (extensionally: `n` has exactly one set
bit, i.e. `n` is positive and equals `2 ^ floor (log2 n)`). -/
def isPowTwo (n : Nat) : Bool := 2 ^ ilog2 n == n

/-- The DDG tree representation from `src/lib.rs`: bucket count, adjusted
bucket count (including the virtual bucket, when appended), and the flat
level/label matrix (`Vec<usize>` in the source). -/
structure Generator where
  bucket_count : Nat
  adjusted_bucket_count : Nat
  level_label_matrix : List Nat
deriving Repr, DecidableEq

/-- Construction-time failure of `Generator::new`.  The source `assert!`s with
the given message; the panic is modelled as this error value. -/
inductive FldrError where
  | invalidDistribution (msg : String) : FldrError
deriving Repr, DecidableEq

/-- Number of strictly positive weights:
`distribution.iter().filter(|&&w| w > 0).count()` from the source. -/
def numPositive (d : List Nat) : Nat := (d.filter (fun w => decide (0 < w))).length

/-- The bit test from the builder's inner loop:
`(w >> (depth - j - 1)) & 1 > 0`. -/
def bitAt (depth j w : Nat) : Bool := decide (0 < (w >>> (depth - j - 1)) &&& 1)

/-- `depth` as computed by the source:
`sum.ilog2() as usize + usize::from(!is_power_of_two)`. -/
def depthOf (d : List Nat) : Nat :=
  ilog2 d.sum + (if isPowTwo d.sum then 0 else 1)

/-- The augmented weight sequence built in the non-power-of-two branch of the
source: `(0..=bucket_count).map(|i| if i < bucket_count { distribution[i] }
else { (1 << depth) - sum }).collect()`. -/
def augmented (d : List Nat) (depth sum : Nat) : List Nat :=
  (List.range (d.length + 1)).map
    (fun i => if i < d.length then d.getD i 0 else 2 ^ depth - sum)

/-- The weight sequence `a` of the source: the distribution itself when the
sum is a power of two, otherwise the augmented sequence. -/
def augOf (d : List Nat) : List Nat :=
  if isPowTwo d.sum then d else augmented d (depthOf d) d.sum

/-- Body of the builder's inner loop: if bit `(depth - j - 1)` of `w` is set,
increment the count slot of level `j` and write label `i` right after the
labels already recorded (`level_label_matrix[k] += 1; let count = ...;
level_label_matrix[k + count] = i;`).  `len1` is `a.len() + 1`, the stride of
one level in the flat matrix. -/
def placeLabel (depth j len1 : Nat) (m : List Nat) (i w : Nat) : List Nat :=
  if bitAt depth j w then
    let k := j * len1
    let m1 := m.set k (m.getD k 0 + 1)
    let count := m1.getD k 0
    m1.set (k + count) i
  else m

/-- The builder's inner loop `for (i, &w) in a.iter().enumerate()`, with the
running index `i` made explicit. -/
def placeLabels (depth j len1 : Nat) : List Nat → Nat → List Nat → List Nat
  | m, _, [] => m
  | m, i, w :: ws => placeLabels depth j len1 (placeLabel depth j len1 m i w) (i + 1) ws

/-- The builder's outer loop `for j in 0..depth`, over an explicit list of
levels. -/
def fillLevels (a : List Nat) (depth : Nat) : List Nat → List Nat → List Nat
  | m, [] => m
  | m, j :: js => fillLevels a depth (placeLabels depth j (a.length + 1) m 0 a) js

/-- The whole matrix construction of `Generator::new`:
`vec![0; (a.len() + 1) * depth]` filled by the two nested loops. -/
def buildMatrix (a : List Nat) (depth : Nat) : List Nat :=
  fillLevels a depth (List.replicate ((a.length + 1) * depth) 0) (List.range depth)

/-- `Generator::new` from the source.  The `assert!` panic is modelled as an
`Except.error` carrying the source's message verbatim. -/
def Generator.new (d : List Nat) : Except FldrError Generator :=
  if 2 ≤ numPositive d then
    Except.ok
      { bucket_count := d.length
        adjusted_bucket_count := (augOf d).length
        level_label_matrix := buildMatrix (augOf d) (depthOf d) }
  else
    Except.error (FldrError.invalidDistribution
      "The distribution must have at least two non-zero weights.")

/-- Result of one run of `Generator::sample` against a finite flip sequence:
a returned index, exhaustion of the flip sequence while still traversing, or
an out-of-bounds read of `level_label_matrix` (a panic in Rust, impossible for
well-formed generators). -/
inductive SampleResult where
  | ok (i : Nat) : SampleResult
  | outOfFlips : SampleResult
  | fault : SampleResult
deriving Repr, DecidableEq

/-- The traversal loop of `Generator::sample`, consuming one coin flip per
iteration.  Matrix reads are the source's `self.level_label_matrix[k]` and
`self.level_label_matrix[k + label_index + 1]`; an out-of-bounds index yields
`fault` (the Rust panic). -/
def sampleLoop (g : Generator) : Nat → Nat → List Bool → SampleResult
  | _, _, [] => SampleResult.outOfFlips
  | label_index, level, toss :: rest =>
    let li := (label_index <<< 1) + (if toss then 1 else 0)
    let k := level * (g.adjusted_bucket_count + 1)
    match g.level_label_matrix.get? k with
    | none => SampleResult.fault
    | some count =>
      if li < count then
        match g.level_label_matrix.get? (k + li + 1) with
        | none => SampleResult.fault
        | some j =>
          if j < g.bucket_count then SampleResult.ok j
          else sampleLoop g 0 0 rest
      else
        sampleLoop g (li - count) (level + 1) rest

/-- `Generator::sample`, starting from `label_index = 0`, `level = 0`. -/
def Generator.sample (g : Generator) (flips : List Bool) : SampleResult :=
  sampleLoop g 0 0 flips

/-! ## Wrapping (release-profile) model for the overflow analysis

Rust release builds compile `+` on `usize` to wrapping addition; nothing in
`Generator::new` checks the sum for overflow.  The following model repeats the
builder with 64-bit wrapping arithmetic at the operations that can overflow. -/

/-- `2 ^ 64`, the size of `usize` on the crate's 64-bit targets. -/
def usizeW : Nat := 2 ^ 64

/-- `distribution.iter().sum()` under release-profile wrapping addition. -/
def sumWrap (d : List Nat) : Nat := d.foldl (fun s w => (s + w) % usizeW) 0

/-- `Generator::new` under release-profile (wrapping) `usize` arithmetic: the
sum wraps modulo `2 ^ 64`, the shift amount of `1 << depth` is masked, and the
padding subtraction wraps. -/
def Generator.newWrap (d : List Nat) : Except FldrError Generator :=
  if 2 ≤ numPositive d then
    let s := sumWrap d
    let depth := ilog2 s + (if isPowTwo s then 0 else 1)
    let a := if isPowTwo s then d
      else (List.range (d.length + 1)).map
        (fun i => if i < d.length then d.getD i 0
                  else ((1 <<< (depth % 64)) % usizeW + usizeW - s) % usizeW)
    Except.ok
      { bucket_count := d.length
        adjusted_bucket_count := a.length
        level_label_matrix := buildMatrix a depth }
  else
    Except.error (FldrError.invalidDistribution
      "The distribution must have at least two non-zero weights.")

/-! ## Derived descriptions of the built tree

`levelLabels a depth j` is the ordered list of (original or virtual) bucket
indices owning a leaf at level `j`: exactly the indices `i` for which bit
`(depth - j - 1)` of `a[i]` is set, in ascending order. -/

/-- The label list of level `j` as described by the construction: indices of
`a` whose bit `(depth - j - 1)` is set, ascending. -/
def levelLabels (a : List Nat) (depth j : Nat) : List Nat :=
  (List.range a.length).filter (fun i => bitAt depth j (a.getD i 0))

/-- The leaf count of level `j`. -/
def levelCount (a : List Nat) (depth j : Nat) : Nat := (levelLabels a depth j).length

/-- Label list of level `j` for a suffix `ws` of `a` whose first element has
index `s` (used to reason about the enumerated inner loop). -/
def labelsFrom (depth j s : Nat) (ws : List Nat) : List Nat :=
  ((List.range ws.length).filter (fun t => bitAt depth j (ws.getD t 0))).map
    (fun t => t + s)

/-- Probability mass (scaled by `2 ^ depth`) carried by levels `j` and deeper:
`∑_{t ∈ [j, depth)} levelCount t * 2 ^ (depth - 1 - t)`. -/
def massFrom (a : List Nat) (depth j : Nat) : Nat :=
  ∑ t in Finset.Ico j depth, levelCount a depth t * 2 ^ (depth - 1 - t)


/-! ## Basic list helpers -/

lemma getD_set_self (l : List Nat) (i v : Nat) (h : i < l.length) :
    (l.set i v).getD i 0 = v := by
  induction l generalizing i with
  | nil => simp at h
  | cons x xs ih =>
    cases i with
    | zero => rfl
    | succ n =>
      simp only [List.set, List.getD_cons_succ]
      exact ih n (by simpa using h)

lemma getD_set_ne (l : List Nat) (i t v : Nat) (h : t ≠ i) :
    (l.set i v).getD t 0 = l.getD t 0 := by
  induction l generalizing i t with
  | nil => rfl
  | cons x xs ih =>
    cases i with
    | zero =>
      cases t with
      | zero => exact absurd rfl h
      | succ u => rfl
    | succ n =>
      cases t with
      | zero => rfl
      | succ u =>
        simp only [List.set, List.getD_cons_succ]
        exact ih n u (fun he => h (by omega))

lemma get?_eq_some_getD (l : List Nat) (k : Nat) (h : k < l.length) :
    l.get? k = some (l.getD k 0) := by
  induction l generalizing k with
  | nil => simp at h
  | cons x xs ih =>
    cases k with
    | zero => rfl
    | succ n =>
      simp only [List.get?, List.getD_cons_succ]
      exact ih n (by simpa using h)

lemma getD_mem (l : List Nat) (t : Nat) (h : t < l.length) : l.getD t 0 ∈ l := by
  induction l generalizing t with
  | nil => simp at h
  | cons x xs ih =>
    cases t with
    | zero => exact List.mem_cons_self x xs
    | succ n =>
      simp only [List.getD_cons_succ]
      exact List.mem_cons_of_mem _ (ih n (by simpa using h))

lemma getD_replicate_zero (n i : Nat) : (List.replicate n (0 : Nat)).getD i 0 = 0 := by
  induction n generalizing i with
  | zero => rfl
  | succ m ih =>
    cases i with
    | zero => rfl
    | succ u => simpa [List.replicate] using ih u

lemma mem_le_sum (l : List Nat) (w : Nat) (h : w ∈ l) : w ≤ l.sum := by
  induction l with
  | nil => simp at h
  | cons x xs ih =>
    rcases List.mem_cons.mp h with rfl | hx
    · simp [List.sum_cons]
    · have := ih hx
      simp only [List.sum_cons]
      omega

/-! ## Counting positive weights -/

lemma numPositive_cons (x : Nat) (xs : List Nat) :
    numPositive (x :: xs) = (if 0 < x then 1 else 0) + numPositive xs := by
  by_cases hx : 0 < x <;> simp [numPositive, List.filter_cons, hx] <;> omega

lemma sum_pos_of_numPositive (l : List Nat) (h : 1 ≤ numPositive l) : 0 < l.sum := by
  induction l with
  | nil => simp [numPositive] at h
  | cons x xs ih =>
    rw [numPositive_cons] at h
    by_cases hx : 0 < x
    · simp only [List.sum_cons]; omega
    · rw [if_neg hx, Nat.zero_add] at h
      have := ih h
      simp only [List.sum_cons]; omega

lemma mem_lt_sum (l : List Nat) (h2 : 2 ≤ numPositive l) : ∀ w ∈ l, w < l.sum := by
  induction l with
  | nil => intro w hw; simp at hw
  | cons x xs ih =>
    intro w hw
    rw [numPositive_cons] at h2
    have hnp1 : 1 ≤ numPositive xs := by split at h2 <;> omega
    have hspos : 0 < xs.sum := sum_pos_of_numPositive xs hnp1
    rcases List.mem_cons.mp hw with rfl | hmem
    · simp only [List.sum_cons]; omega
    · by_cases hx : 0 < x
      · have := mem_le_sum xs w hmem
        simp only [List.sum_cons]; omega
      · have h2x : 2 ≤ numPositive xs := by rw [if_neg hx, Nat.zero_add] at h2; omega
        have := ih h2x w hmem
        simp only [List.sum_cons]; omega

lemma two_le_sum (l : List Nat) (h2 : 2 ≤ numPositive l) : 2 ≤ l.sum := by
  induction l with
  | nil => simp [numPositive] at h2
  | cons x xs ih =>
    rw [numPositive_cons] at h2
    by_cases hx : 0 < x
    · rw [if_pos hx] at h2
      have := sum_pos_of_numPositive xs (by omega)
      simp only [List.sum_cons]; omega
    · rw [if_neg hx, Nat.zero_add] at h2
      have := ih h2
      simp only [List.sum_cons]; omega

/-! ## The logarithm embedding -/

lemma ilog2F_eq_log (fuel : Nat) : ∀ n : Nat, n ≤ fuel → ilog2F fuel n = Nat.log 2 n := by
  induction fuel with
  | zero =>
    intro n h
    have : n = 0 := by omega
    subst this
    simp [ilog2F]
  | succ m ih =>
    intro n h
    by_cases h2 : 2 ≤ n
    · have hdiv : n / 2 ≤ m := by
        have : n / 2 < n := Nat.div_lt_self (by omega) (by omega)
        omega
      rw [ilog2F, if_pos h2, ih _ hdiv, Nat.log_of_one_lt_of_le (by omega) h2]
    · rw [ilog2F, if_neg h2]
      interval_cases n
      · simp
      · simp

lemma ilog2_eq_log (n : Nat) : ilog2 n = Nat.log 2 n := ilog2F_eq_log n n le_rfl

lemma isPowTwo_iff (n : Nat) : isPowTwo n = true ↔ 2 ^ Nat.log 2 n = n := by
  simp [isPowTwo, ilog2_eq_log]

lemma isPowTwo_false_lt (n : Nat) (h0 : 0 < n) (h : isPowTwo n = false) :
    2 ^ Nat.log 2 n < n := by
  have hle := Nat.pow_log_le_self 2 (show n ≠ 0 by omega)
  have hne : 2 ^ Nat.log 2 n ≠ n := fun he => by
    rw [(isPowTwo_iff n).mpr he] at h
    exact Bool.noConfusion h
  omega

lemma depthOf_eq (d : List Nat) :
    depthOf d = Nat.log 2 d.sum + (if isPowTwo d.sum then 0 else 1) := by
  simp [depthOf, ilog2_eq_log]

lemma bool_eq_false_of_not {b : Bool} (h : ¬ b = true) : b = false := by
  cases b
  · rfl
  · exact absurd rfl h

lemma sum_le_pow_depth (d : List Nat) : d.sum ≤ 2 ^ depthOf d := by
  rw [depthOf_eq]
  by_cases hp : isPowTwo d.sum
  · rw [if_pos hp, Nat.add_zero, (isPowTwo_iff _).mp hp]
  · rw [if_neg hp]
    exact Nat.le_of_lt (Nat.lt_pow_succ_log_self (by omega) _)

lemma depth_le_of_le_pow (d : List Nat) (hpos : 0 < d.sum) (k : Nat)
    (hk : d.sum ≤ 2 ^ k) : depthOf d ≤ k := by
  rw [depthOf_eq]
  by_cases hp : isPowTwo d.sum
  · rw [if_pos hp, Nat.add_zero]
    have heq := (isPowTwo_iff _).mp hp
    have hle : 2 ^ Nat.log 2 d.sum ≤ 2 ^ k := by omega
    exact (Nat.pow_le_pow_iff_right (by omega)).mp hle
  · rw [if_neg hp]
    have hlt := isPowTwo_false_lt d.sum hpos (bool_eq_false_of_not hp)
    by_contra hc
    push_neg at hc
    have hk2 : k ≤ Nat.log 2 d.sum := by omega
    have : 2 ^ k ≤ 2 ^ Nat.log 2 d.sum := (Nat.pow_le_pow_iff_right (by omega)).mpr hk2
    omega

lemma one_le_depth (d : List Nat) (h2 : 2 ≤ numPositive d) : 1 ≤ depthOf d := by
  rw [depthOf_eq]
  have hs := two_le_sum d h2
  by_cases hp : isPowTwo d.sum
  · rw [if_pos hp, Nat.add_zero]
    exact Nat.log_pos (by omega) (by omega)
  · rw [if_neg hp]
    omega

/-! ## The augmented distribution -/

lemma map_getD_range (l : List Nat) :
    (List.range l.length).map (fun i => l.getD i 0) = l := by
  induction l with
  | nil => rfl
  | cons x xs ih =>
    rw [List.length_cons, List.range_succ_eq_map, List.map_cons, List.map_map]
    have hcomp : ((fun i => (x :: xs).getD i 0) ∘ Nat.succ) = fun i => xs.getD i 0 := by
      funext i
      simp [List.getD_cons_succ]
    rw [hcomp, ih]
    rfl

lemma augmented_eq_append (d : List Nat) (depth sum : Nat) :
    augmented d depth sum = d ++ [2 ^ depth - sum] := by
  unfold augmented
  rw [List.range_succ, List.map_append]
  have h1 : (List.range d.length).map
        (fun i => if i < d.length then d.getD i 0 else 2 ^ depth - sum)
      = (List.range d.length).map (fun i => d.getD i 0) :=
    List.map_congr_left (fun i hi => if_pos (List.mem_range.mp hi))
  rw [h1, map_getD_range]
  simp

lemma augOf_pow (d : List Nat) (hp : isPowTwo d.sum = true) : augOf d = d := by
  rw [augOf, if_pos hp]

lemma augOf_not_pow (d : List Nat) (hp : isPowTwo d.sum = false) :
    augOf d = d ++ [2 ^ depthOf d - d.sum] := by
  rw [augOf, if_neg (by simp [hp]), augmented_eq_append]

lemma sum_augOf (d : List Nat) (h2 : 2 ≤ numPositive d) :
    (augOf d).sum = 2 ^ depthOf d := by
  by_cases hp : isPowTwo d.sum
  · rw [augOf_pow d hp, depthOf_eq, if_pos hp, Nat.add_zero]
    exact ((isPowTwo_iff _).mp hp).symm
  · rw [augOf_not_pow d (bool_eq_false_of_not hp)]
    rw [List.sum_append, List.sum_cons, List.sum_nil]
    have := sum_le_pow_depth d
    omega

lemma augOf_mem_lt (d : List Nat) (h2 : 2 ≤ numPositive d) :
    ∀ w ∈ augOf d, w < 2 ^ depthOf d := by
  intro w hw
  have hle := sum_le_pow_depth d
  by_cases hp : isPowTwo d.sum
  · rw [augOf_pow d hp] at hw
    have := mem_lt_sum d h2 w hw
    omega
  · rw [augOf_not_pow d (bool_eq_false_of_not hp)] at hw
    rcases List.mem_append.mp hw with hw | hw
    · have := mem_lt_sum d h2 w hw
      omega
    · have hs := two_le_sum d h2
      have hww : w = 2 ^ depthOf d - d.sum := by simpa using hw
      omega

lemma augOf_getD_left (d : List Nat) (i : Nat) (hi : i < d.length) :
    (augOf d).getD i 0 = d.getD i 0 := by
  by_cases hp : isPowTwo d.sum
  · rw [augOf_pow d hp]
  · rw [augOf_not_pow d (bool_eq_false_of_not hp)]
    exact List.getD_append _ _ _ _ hi

/-! ## Binary expansion: each weight splits across levels by its bits -/

lemma mod_two_pow_succ (x d : Nat) :
    x % 2 ^ (d + 1) = x % 2 ^ d + 2 ^ d * (x / 2 ^ d % 2) := by
  have hpos : 0 < 2 ^ d := Nat.pos_pow_of_pos d (by omega)
  have hm : x % 2 ^ d < 2 ^ d := Nat.mod_lt _ hpos
  have hr : x / 2 ^ d % 2 < 2 := Nat.mod_lt _ (by omega)
  have h1 : x = 2 ^ d * (x / 2 ^ d) + x % 2 ^ d := (Nat.div_add_mod _ _).symm
  have h2 : x / 2 ^ d = 2 * (x / 2 ^ d / 2) + x / 2 ^ d % 2 := (Nat.div_add_mod _ _).symm
  have hsplit : x = 2 ^ (d + 1) * (x / 2 ^ d / 2)
      + (x % 2 ^ d + 2 ^ d * (x / 2 ^ d % 2)) := by
    conv_lhs => rw [h1, h2]
    ring
  conv_lhs => rw [hsplit]
  rw [Nat.mul_add_mod]
  have hb : 2 ^ d * (x / 2 ^ d % 2) ≤ 2 ^ d * 1 := Nat.mul_le_mul_left _ (by omega)
  exact Nat.mod_eq_of_lt (by rw [pow_succ]; omega)

lemma pow_mul_bit_sum (x : Nat) : ∀ d : Nat,
    ∑ b in Finset.range d, x / 2 ^ b % 2 * 2 ^ b = x % 2 ^ d := by
  intro d
  induction d with
  | zero => simp [Nat.mod_one]
  | succ m ih =>
    rw [Finset.sum_range_succ, ih, mod_two_pow_succ]
    ring

lemma bit_decomp (x d : Nat) :
    ∑ t in Finset.range d, (if bitAt d t x then 1 else 0) * 2 ^ (d - 1 - t)
      = x % 2 ^ d := by
  have hrefl := Finset.sum_range_reflect (fun b => x / 2 ^ b % 2 * 2 ^ b) d
  rw [← pow_mul_bit_sum x d, ← hrefl]
  apply Finset.sum_congr rfl
  intro t ht
  have htd : t < d := Finset.mem_range.mp ht
  have h1 : d - t - 1 = d - 1 - t := by omega
  have hsc : (if bitAt d t x then 1 else 0) = x / 2 ^ (d - 1 - t) % 2 := by
    simp only [bitAt, h1, Nat.shiftRight_eq_div_pow, Nat.and_one_is_mod,
      decide_eq_true_eq]
    have hr : x / 2 ^ (d - 1 - t) % 2 < 2 := Nat.mod_lt _ (by omega)
    by_cases h0 : 0 < x / 2 ^ (d - 1 - t) % 2
    · rw [if_pos h0]; omega
    · rw [if_neg h0]; omega
  rw [hsc]

/-! ## The per-level label lists -/

lemma levelCount_le (a : List Nat) (dep j : Nat) : levelCount a dep j ≤ a.length := by
  have h := List.length_filter_le (fun i => bitAt dep j (a.getD i 0)) (List.range a.length)
  simpa [levelCount, levelLabels] using h

lemma labelsFrom_length (dep j s : Nat) (ws : List Nat) :
    (labelsFrom dep j s ws).length = levelCount ws dep j := by
  simp [labelsFrom, levelCount, levelLabels]

lemma labelsFrom_cons (dep j s w : Nat) (ws : List Nat) :
    labelsFrom dep j s (w :: ws)
      = (if bitAt dep j w then [s] else []) ++ labelsFrom dep j (s + 1) ws := by
  unfold labelsFrom
  rw [List.length_cons, List.range_succ_eq_map, List.filter_cons]
  have hpred : ((fun t => bitAt dep j ((w :: ws).getD t 0)) ∘ Nat.succ)
      = fun t => bitAt dep j (ws.getD t 0) := by
    funext t
    simp [List.getD_cons_succ]
  have hmap : ((fun t => t + s) ∘ Nat.succ) = fun t => t + (s + 1) := by
    funext t
    simp only [Function.comp_apply, Nat.succ_eq_add_one]
    omega
  by_cases hb : bitAt dep j w
  · simp only [List.getD_cons_zero, hb, if_true]
    rw [List.filter_map, hpred, List.map_cons, List.map_map, hmap]
    simp
  · simp only [List.getD_cons_zero, hb, Bool.false_eq_true, if_false]
    rw [List.filter_map, hpred, List.map_map, hmap]
    simp

lemma levelLabels_eq_labelsFrom (a : List Nat) (dep j : Nat) :
    levelLabels a dep j = labelsFrom dep j 0 a := by
  unfold levelLabels labelsFrom
  rw [show (fun t : Nat => t + 0) = id from funext fun t => Nat.add_zero t, List.map_id]

lemma levelCount_cons (dep j w : Nat) (ws : List Nat) :
    levelCount (w :: ws) dep j
      = (if bitAt dep j w then 1 else 0) + levelCount ws dep j := by
  have h := congrArg List.length (labelsFrom_cons dep j 0 w ws)
  rw [labelsFrom_length, List.length_append, labelsFrom_length] at h
  rw [h]
  by_cases hb : bitAt dep j w <;> simp [hb]

lemma count_mass (dep : Nat) : ∀ a : List Nat,
    ∑ j in Finset.range dep, levelCount a dep j * 2 ^ (dep - 1 - j)
      = (a.map (fun w => w % 2 ^ dep)).sum := by
  intro a
  induction a with
  | nil => simp [levelCount, levelLabels]
  | cons w ws ih =>
    rw [List.map_cons, List.sum_cons, ← ih, ← bit_decomp w dep,
      ← Finset.sum_add_distrib]
    apply Finset.sum_congr rfl
    intro j _
    rw [levelCount_cons]
    ring

lemma map_mod_sum (M : Nat) (a : List Nat) :
    (∀ w ∈ a, w < M) → (a.map (fun w => w % M)).sum = a.sum := by
  induction a with
  | nil => intro _; rfl
  | cons w ws ih =>
    intro h
    rw [List.map_cons, List.sum_cons, List.sum_cons,
      Nat.mod_eq_of_lt (h w (List.mem_cons_self w ws)),
      ih (fun x hx => h x (List.mem_cons_of_mem _ hx))]

lemma mass_identity (d : List Nat) (h2 : 2 ≤ numPositive d) :
    ∑ j in Finset.range (depthOf d),
        levelCount (augOf d) (depthOf d) j * 2 ^ (depthOf d - 1 - j)
      = 2 ^ depthOf d := by
  rw [count_mass, map_mod_sum _ _ (augOf_mem_lt d h2), sum_augOf d h2]

lemma massFrom_zero (a : List Nat) (dep : Nat) :
    massFrom a dep 0
      = ∑ j in Finset.range dep, levelCount a dep j * 2 ^ (dep - 1 - j) := by
  rw [massFrom, Finset.range_eq_Ico]

lemma massFrom_succ (a : List Nat) (dep j : Nat) (h : j < dep) :
    massFrom a dep j
      = levelCount a dep j * 2 ^ (dep - 1 - j) + massFrom a dep (j + 1) :=
  Finset.sum_eq_sum_Ico_succ_bot h _

lemma massFrom_end (a : List Nat) (dep : Nat) : massFrom a dep dep = 0 := by
  simp [massFrom]

/-! ## Characterizing the builder's inner loop

Running the inner loop of the builder over a suffix `ws` (whose first element
carries index `s`) on a matrix whose level-`j` count slot holds `q` appends
exactly the labels `labelsFrom dep j s ws` after the `q` labels already
present, adds their number to the count slot, and leaves every other position
of the matrix unchanged. -/

lemma placeLabels_spec (dep j len1 : Nat) : ∀ (ws m : List Nat) (q s : Nat),
    j * len1 + len1 ≤ m.length →
    m.getD (j * len1) 0 = q →
    q + ws.length + 1 ≤ len1 →
    (placeLabels dep j len1 m s ws).length = m.length ∧
    (placeLabels dep j len1 m s ws).getD (j * len1) 0
      = q + (labelsFrom dep j s ws).length ∧
    (∀ t, t < (labelsFrom dep j s ws).length →
      (placeLabels dep j len1 m s ws).getD (j * len1 + q + 1 + t) 0
        = (labelsFrom dep j s ws).getD t 0) ∧
    (∀ idx, idx < j * len1 + q + 1 → idx ≠ j * len1 →
      (placeLabels dep j len1 m s ws).getD idx 0 = m.getD idx 0) ∧
    (∀ idx, j * len1 + len1 ≤ idx →
      (placeLabels dep j len1 m s ws).getD idx 0 = m.getD idx 0) := by
  intro ws
  induction ws with
  | nil =>
    intro m q s hlen hq hbound
    refine ⟨rfl, ?_, ?_, fun idx _ _ => rfl, fun idx _ => rfl⟩
    · simpa [placeLabels, labelsFrom] using hq
    · intro t ht
      simp [labelsFrom] at ht
  | cons w ws ih =>
    intro m q s hlen hq hbound
    have hlen1 : q + 2 ≤ len1 := by
      simp only [List.length_cons] at hbound
      omega
    by_cases hb : bitAt dep j w
    · have hk_lt : j * len1 < m.length := by omega
      have hpl : placeLabel dep j len1 m s w
          = (m.set (j * len1) (q + 1)).set (j * len1 + (q + 1)) s := by
        simp only [placeLabel, hb, if_true, hq]
        rw [getD_set_self m (j * len1) (q + 1) hk_lt]
      set M2 := (m.set (j * len1) (q + 1)).set (j * len1 + (q + 1)) s with hM2
      have hM2len : M2.length = m.length := by
        rw [hM2, List.length_set, List.length_set]
      have hq1lt : j * len1 + (q + 1) < m.length := by omega
      have hM2k : M2.getD (j * len1) 0 = q + 1 := by
        rw [hM2, getD_set_ne _ _ _ _ (by omega), getD_set_self _ _ _ hk_lt]
      have hM2lab : M2.getD (j * len1 + (q + 1)) 0 = s := by
        rw [hM2]
        exact getD_set_self _ _ _ (by rw [List.length_set]; omega)
      have hM2pres : ∀ idx, idx ≠ j * len1 → idx ≠ j * len1 + (q + 1) →
          M2.getD idx 0 = m.getD idx 0 := by
        intro idx h1 h2
        rw [hM2, getD_set_ne _ _ _ _ h2, getD_set_ne _ _ _ _ h1]
      have hstep : placeLabels dep j len1 m s (w :: ws)
          = placeLabels dep j len1 M2 (s + 1) ws := by
        show placeLabels dep j len1 (placeLabel dep j len1 m s w) (s + 1) ws
          = placeLabels dep j len1 M2 (s + 1) ws
        rw [hpl]
      have hbound2 : (q + 1) + ws.length + 1 ≤ len1 := by
        simp only [List.length_cons] at hbound
        omega
      obtain ⟨ih1, ih2, ih3, ih4, ih5⟩ :=
        ih M2 (q + 1) (s + 1) (by rw [hM2len]; exact hlen) hM2k hbound2
      have hF : labelsFrom dep j s (w :: ws)
          = s :: labelsFrom dep j (s + 1) ws := by
        rw [labelsFrom_cons]
        simp [hb]
      rw [hstep, hF]
      refine ⟨by rw [ih1, hM2len], ?_, ?_, ?_, ?_⟩
      · rw [ih2, List.length_cons]
        omega
      · intro t ht
        rw [List.length_cons] at ht
        cases t with
        | zero =>
          have hidx : j * len1 + q + 1 + 0 = j * len1 + (q + 1) := by omega
          rw [hidx, ih4 _ (by omega) (by omega), hM2lab]
          rfl
        | succ u =>
          have hidx : j * len1 + q + 1 + (u + 1) = j * len1 + (q + 1) + 1 + u := by
            omega
          rw [hidx, ih3 u (by omega)]
          rfl
      · intro idx h1 h2
        rw [ih4 idx (by omega) h2, hM2pres idx h2 (by omega)]
      · intro idx h1
        rw [ih5 idx h1, hM2pres idx (by omega) (by omega)]
    · have hpl : placeLabel dep j len1 m s w = m := by
        simp [placeLabel, hb]
      have hstep : placeLabels dep j len1 m s (w :: ws)
          = placeLabels dep j len1 m (s + 1) ws := by
        show placeLabels dep j len1 (placeLabel dep j len1 m s w) (s + 1) ws
          = placeLabels dep j len1 m (s + 1) ws
        rw [hpl]
      have hF : labelsFrom dep j s (w :: ws) = labelsFrom dep j (s + 1) ws := by
        rw [labelsFrom_cons]
        simp [hb]
      have hbound2 : q + ws.length + 1 ≤ len1 := by
        simp only [List.length_cons] at hbound
        omega
      rw [hstep, hF]
      exact ih m q (s + 1) hlen hq hbound2

/-! ## Characterizing the whole matrix construction -/

lemma region_eq_of_mem (len1 j j2 idx : Nat) (h1 : 0 < len1)
    (ha : j * len1 ≤ idx) (hb : idx < j * len1 + len1)
    (hc : j2 * len1 ≤ idx) (hd : idx < j2 * len1 + len1) : j = j2 := by
  have e1 : idx / len1 = j := Nat.div_eq_of_lt_le ha (by rw [Nat.succ_mul]; omega)
  have e2 : idx / len1 = j2 := Nat.div_eq_of_lt_le hc (by rw [Nat.succ_mul]; omega)
  omega

lemma fillLevels_spec (a : List Nat) (dep : Nat) : ∀ (js m : List Nat),
    m.length = (a.length + 1) * dep →
    (∀ j ∈ js, j < dep) →
    (∀ j ∈ js, ∀ t, t ≤ a.length → m.getD (j * (a.length + 1) + t) 0 = 0) →
    js.Nodup →
    (fillLevels a dep m js).length = m.length ∧
    (∀ j ∈ js,
      (fillLevels a dep m js).getD (j * (a.length + 1)) 0 = levelCount a dep j ∧
      (∀ t, t < levelCount a dep j →
        (fillLevels a dep m js).getD (j * (a.length + 1) + 1 + t) 0
          = (levelLabels a dep j).getD t 0)) ∧
    (∀ idx,
      (∀ j ∈ js, idx < j * (a.length + 1) ∨ j * (a.length + 1) + (a.length + 1) ≤ idx) →
      (fillLevels a dep m js).getD idx 0 = m.getD idx 0) := by
  intro js
  induction js with
  | nil =>
    intro m hmlen hlt hzero hnd
    exact ⟨rfl, fun j hj => absurd hj (List.not_mem_nil j), fun idx _ => rfl⟩
  | cons j js ihs =>
    intro m hmlen hlt hzero hnd
    set len1 := a.length + 1 with hlen1def
    have hjlt : j < dep := hlt j (List.mem_cons_self _ _)
    have hreg : j * len1 + len1 ≤ m.length := by
      rw [hmlen]
      have hj1 : j + 1 ≤ dep := hjlt
      calc j * len1 + len1 = (j + 1) * len1 := by rw [Nat.succ_mul]
        _ ≤ dep * len1 := Nat.mul_le_mul_right _ hj1
        _ = len1 * dep := Nat.mul_comm _ _
    have hq0 : m.getD (j * len1) 0 = 0 := by
      have h := hzero j (List.mem_cons_self _ _) 0 (by omega)
      simpa using h
    obtain ⟨p1, p2, p3, p4, p5⟩ :=
      placeLabels_spec dep j len1 a m 0 0 hreg hq0 (by omega)
    set M1 := placeLabels dep j len1 m 0 a with hM1def
    have hout : ∀ idx, (idx < j * len1 ∨ j * len1 + len1 ≤ idx) →
        M1.getD idx 0 = m.getD idx 0 := by
      intro idx h
      rcases h with h | h
      · exact p4 idx (by omega) (by omega)
      · exact p5 idx h
    have hjnotin : j ∉ js := (List.nodup_cons.mp hnd).1
    have hdisj : ∀ j2, j2 ≠ j → ∀ idx, j2 * len1 ≤ idx → idx < j2 * len1 + len1 →
        (idx < j * len1 ∨ j * len1 + len1 ≤ idx) := by
      intro j2 hne idx ha hb
      by_contra hc
      push_neg at hc
      exact hne (region_eq_of_mem len1 j2 j idx (by omega) ha hb hc.1 hc.2)
    have hzero2 : ∀ j2 ∈ js, ∀ t, t ≤ a.length → M1.getD (j2 * len1 + t) 0 = 0 := by
      intro j2 hj2 t ht
      have hne : j2 ≠ j := fun he => hjnotin (he ▸ hj2)
      rw [hout _ (hdisj j2 hne _ (by omega) (by omega))]
      exact hzero j2 (List.mem_cons_of_mem _ hj2) t ht
    obtain ⟨q1, q2, q3⟩ := ihs M1 (by rw [p1]; exact hmlen)
      (fun j2 h => hlt j2 (List.mem_cons_of_mem _ h)) hzero2
      (List.nodup_cons.mp hnd).2
    have hj_out : ∀ idx, j * len1 ≤ idx → idx < j * len1 + len1 →
        ∀ j2 ∈ js, idx < j2 * len1 ∨ j2 * len1 + len1 ≤ idx := by
      intro idx ha hb j2 hj2
      have hne : j ≠ j2 := fun he => hjnotin (he ▸ hj2)
      by_contra hc
      push_neg at hc
      exact hne (region_eq_of_mem len1 j j2 idx (by omega) ha hb hc.1 hc.2)
    have hstep : fillLevels a dep m (j :: js) = fillLevels a dep M1 js := rfl
    rw [hstep]
    refine ⟨by rw [q1, p1], ?_, ?_⟩
    · intro j2 hj2
      rcases List.mem_cons.mp hj2 with rfl | hj2m
      · constructor
        · rw [q3 _ (hj_out _ (by omega) (by omega)), p2, labelsFrom_length]
          omega
        · intro t ht
          have htlen : t < a.length := by
            have := levelCount_le a dep j2
            omega
          rw [q3 _ (hj_out _ (by omega) (by omega))]
          have h3 := p3 t (by rw [labelsFrom_length]; exact ht)
          rw [levelLabels_eq_labelsFrom]
          have hidx : j2 * len1 + 0 + 1 + t = j2 * len1 + 1 + t := by omega
          rw [hidx] at h3
          exact h3
      · exact q2 j2 hj2m
    · intro idx hidx
      rw [q3 idx (fun j2 h => hidx j2 (List.mem_cons_of_mem _ h)),
        hout idx (hidx j (List.mem_cons_self _ _))]

lemma buildMatrix_spec (a : List Nat) (dep : Nat) :
    (buildMatrix a dep).length = (a.length + 1) * dep ∧
    ∀ j, j < dep →
      (buildMatrix a dep).getD (j * (a.length + 1)) 0 = levelCount a dep j ∧
      ∀ t, t < levelCount a dep j →
        (buildMatrix a dep).getD (j * (a.length + 1) + 1 + t) 0
          = (levelLabels a dep j).getD t 0 := by
  have hrep : (List.replicate ((a.length + 1) * dep) (0 : Nat)).length
      = (a.length + 1) * dep := List.length_replicate _ _
  obtain ⟨h1, h2, _⟩ := fillLevels_spec a dep (List.range dep) _ hrep
    (fun j hj => List.mem_range.mp hj)
    (fun j _ t _ => getD_replicate_zero _ _)
    (List.nodup_range dep)
  constructor
  · show (fillLevels a dep (List.replicate ((a.length + 1) * dep) 0) (List.range dep)).length
      = (a.length + 1) * dep
    rw [h1, hrep]
  · intro j hj
    exact h2 j (List.mem_range.mpr hj)

lemma new_ok_elim (d : List Nat) (g : Generator) (h : Generator.new d = Except.ok g) :
    2 ≤ numPositive d ∧ g.bucket_count = d.length ∧
    g.adjusted_bucket_count = (augOf d).length ∧
    g.level_label_matrix = buildMatrix (augOf d) (depthOf d) := by
  unfold Generator.new at h
  by_cases hp : 2 ≤ numPositive d
  · rw [if_pos hp] at h
    injection h with h
    subst h
    exact ⟨hp, rfl, rfl, rfl⟩
  · rw [if_neg hp] at h
    exact Except.noConfusion h

/-! ## Sampler lemmas -/

set_option linter.deprecated false in
lemma getD_of_get? (l : List Nat) (k c : Nat) (h : l.get? k = some c) :
    l.getD k 0 = c := by
  rw [List.getD_eq_get?, h]
  rfl

lemma lt_length_of_get? (l : List Nat) (k c : Nat) (h : l.get? k = some c) :
    k < l.length := by
  by_contra hc
  push_neg at hc
  rw [List.get?_eq_none.mpr hc] at h
  exact Option.noConfusion h


lemma sampleLoop_cons_none (g : Generator) (v level : Nat) (toss : Bool)
    (rest : List Bool)
    (hget : g.level_label_matrix.get? (level * (g.adjusted_bucket_count + 1)) = none) :
    sampleLoop g v level (toss :: rest) = SampleResult.fault := by
  simp only [sampleLoop, hget]

lemma sampleLoop_cons_descend (g : Generator) (v level : Nat) (toss : Bool)
    (rest : List Bool) (count : Nat)
    (hget : g.level_label_matrix.get? (level * (g.adjusted_bucket_count + 1))
      = some count)
    (hge : ¬ (v <<< 1) + (if toss then 1 else 0) < count) :
    sampleLoop g v level (toss :: rest)
      = sampleLoop g ((v <<< 1) + (if toss then 1 else 0) - count) (level + 1) rest := by
  simp only [sampleLoop, hget, if_neg hge]

lemma sampleLoop_cons_label_none (g : Generator) (v level : Nat) (toss : Bool)
    (rest : List Bool) (count : Nat)
    (hget : g.level_label_matrix.get? (level * (g.adjusted_bucket_count + 1))
      = some count)
    (hlt : (v <<< 1) + (if toss then 1 else 0) < count)
    (hget2 : g.level_label_matrix.get? (level * (g.adjusted_bucket_count + 1)
      + ((v <<< 1) + (if toss then 1 else 0)) + 1) = none) :
    sampleLoop g v level (toss :: rest) = SampleResult.fault := by
  simp only [sampleLoop, hget, if_pos hlt, hget2]

lemma sampleLoop_cons_label (g : Generator) (v level : Nat) (toss : Bool)
    (rest : List Bool) (count lab : Nat)
    (hget : g.level_label_matrix.get? (level * (g.adjusted_bucket_count + 1))
      = some count)
    (hlt : (v <<< 1) + (if toss then 1 else 0) < count)
    (hget2 : g.level_label_matrix.get? (level * (g.adjusted_bucket_count + 1)
      + ((v <<< 1) + (if toss then 1 else 0)) + 1) = some lab) :
    sampleLoop g v level (toss :: rest)
      = (if lab < g.bucket_count then SampleResult.ok lab
         else sampleLoop g 0 0 rest) := by
  simp only [sampleLoop, hget, if_pos hlt, hget2]

lemma sampleLoop_ok_lt (g : Generator) : ∀ (flips : List Bool) (v level r : Nat),
    sampleLoop g v level flips = SampleResult.ok r → r < g.bucket_count := by
  intro flips
  induction flips with
  | nil =>
    intro v level r h
    exact SampleResult.noConfusion h
  | cons toss rest ih =>
    intro v level r h
    cases hget : g.level_label_matrix.get? (level * (g.adjusted_bucket_count + 1)) with
    | none =>
      rw [sampleLoop_cons_none g v level toss rest hget] at h
      exact SampleResult.noConfusion h
    | some count =>
      by_cases hlt : (v <<< 1) + (if toss then 1 else 0) < count
      · cases hget2 : g.level_label_matrix.get? (level * (g.adjusted_bucket_count + 1)
            + ((v <<< 1) + (if toss then 1 else 0)) + 1) with
        | none =>
          rw [sampleLoop_cons_label_none g v level toss rest count hget hlt hget2] at h
          exact SampleResult.noConfusion h
        | some lab =>
          rw [sampleLoop_cons_label g v level toss rest count lab hget hlt hget2] at h
          by_cases hbc : lab < g.bucket_count
          · rw [if_pos hbc] at h
            injection h with h
            exact h ▸ hbc
          · rw [if_neg hbc] at h
            exact ih 0 0 r h
      · rw [sampleLoop_cons_descend g v level toss rest count hget hlt] at h
        exact ih _ _ r h

lemma sampleLoop_ok_reads (g : Generator) : ∀ (flips : List Bool) (v level r : Nat),
    sampleLoop g v level flips = SampleResult.ok r →
    ∃ lev li,
      lev * (g.adjusted_bucket_count + 1) + li + 1 < g.level_label_matrix.length ∧
      li < g.level_label_matrix.getD (lev * (g.adjusted_bucket_count + 1)) 0 ∧
      g.level_label_matrix.getD (lev * (g.adjusted_bucket_count + 1) + li + 1) 0 = r := by
  intro flips
  induction flips with
  | nil =>
    intro v level r h
    exact SampleResult.noConfusion h
  | cons toss rest ih =>
    intro v level r h
    cases hget : g.level_label_matrix.get? (level * (g.adjusted_bucket_count + 1)) with
    | none =>
      rw [sampleLoop_cons_none g v level toss rest hget] at h
      exact SampleResult.noConfusion h
    | some count =>
      by_cases hlt : (v <<< 1) + (if toss then 1 else 0) < count
      · cases hget2 : g.level_label_matrix.get? (level * (g.adjusted_bucket_count + 1)
            + ((v <<< 1) + (if toss then 1 else 0)) + 1) with
        | none =>
          rw [sampleLoop_cons_label_none g v level toss rest count hget hlt hget2] at h
          exact SampleResult.noConfusion h
        | some lab =>
          rw [sampleLoop_cons_label g v level toss rest count lab hget hlt hget2] at h
          by_cases hbc : lab < g.bucket_count
          · rw [if_pos hbc] at h
            injection h with h
            subst h
            exact ⟨level, (v <<< 1) + (if toss then 1 else 0),
              lt_length_of_get? _ _ _ hget2,
              by rw [getD_of_get? _ _ _ hget]; exact hlt,
              getD_of_get? _ _ _ hget2⟩
          · rw [if_neg hbc] at h
            exact ih 0 0 r h
      · rw [sampleLoop_cons_descend g v level toss rest count hget hlt] at h
        exact ih _ _ r h

lemma sampleLoop_no_fault (g : Generator) (A : List Nat) (D : Nat)
    (hn : g.adjusted_bucket_count = A.length)
    (hmlen : g.level_label_matrix.length = (A.length + 1) * D)
    (hchar : ∀ j, j < D →
      g.level_label_matrix.getD (j * (A.length + 1)) 0 = levelCount A D j)
    (hmass : massFrom A D 0 = 2 ^ D) :
    ∀ (flips : List Bool) (v level : Nat),
      level < D → (v + 1) * 2 ^ (D - level) ≤ massFrom A D level →
      sampleLoop g v level flips ≠ SampleResult.fault := by
  intro flips
  induction flips with
  | nil =>
    intro v level _ _ h
    exact SampleResult.noConfusion h
  | cons toss rest ih =>
    intro v level hlev hinv h
    have hkb : level * (A.length + 1) + (A.length + 1)
        ≤ g.level_label_matrix.length := by
      rw [hmlen]
      have h1 : level + 1 ≤ D := hlev
      calc level * (A.length + 1) + (A.length + 1)
          = (level + 1) * (A.length + 1) := by rw [Nat.succ_mul]
        _ ≤ D * (A.length + 1) := Nat.mul_le_mul_right _ h1
        _ = (A.length + 1) * D := Nat.mul_comm _ _
    have hkl : level * (A.length + 1) < g.level_label_matrix.length := by omega
    have hget : g.level_label_matrix.get? (level * (g.adjusted_bucket_count + 1))
        = some (levelCount A D level) := by
      rw [hn, get?_eq_some_getD _ _ hkl, hchar level hlev]
    set c := levelCount A D level with hcdef
    set li := (v <<< 1) + (if toss then 1 else 0) with hlidef
    have hli : li ≤ 2 * v + 1 := by
      rw [hlidef, Nat.shiftLeft_eq, pow_one]
      split <;> omega
    by_cases hlt : li < c
    · have hcle : c ≤ A.length := levelCount_le A D level
      have hlab_lt : level * (A.length + 1) + li + 1
          < g.level_label_matrix.length := by omega
      cases hget2 : g.level_label_matrix.get? (level * (g.adjusted_bucket_count + 1)
          + li + 1) with
      | none =>
        rw [hn] at hget2
        rw [get?_eq_some_getD _ _ hlab_lt] at hget2
        exact Option.noConfusion hget2
      | some lab =>
        rw [sampleLoop_cons_label g v level toss rest c lab hget hlt hget2] at h
        by_cases hbc : lab < g.bucket_count
        · rw [if_pos hbc] at h
          exact SampleResult.noConfusion h
        · rw [if_neg hbc] at h
          exact ih 0 0 (by omega) (by simp [hmass]) h
    · rw [sampleLoop_cons_descend g v level toss rest c hget hlt] at h
      have hsplit := massFrom_succ A D level hlev
      rw [← hcdef] at hsplit
      have hexp2 : D - 1 - level = D - (level + 1) := by omega
      rw [hexp2] at hsplit
      have hexp : D - level = (D - (level + 1)) + 1 := by omega
      rw [hexp, pow_succ] at hinv
      by_cases hDl : level + 1 < D
      · have hgoal : (li - c + 1) * 2 ^ (D - (level + 1))
            ≤ massFrom A D (level + 1) := by
          have s1 : (li - c + 1) * 2 ^ (D - (level + 1))
              ≤ (2 * (v + 1) - c) * 2 ^ (D - (level + 1)) :=
            Nat.mul_le_mul_right _ (by omega)
          have s2 : (2 * (v + 1) - c) * 2 ^ (D - (level + 1))
              = 2 * (v + 1) * 2 ^ (D - (level + 1)) - c * 2 ^ (D - (level + 1)) :=
            Nat.sub_mul _ _ _
          have s3 : 2 * (v + 1) * 2 ^ (D - (level + 1))
              = (v + 1) * (2 ^ (D - (level + 1)) * 2) := by ring
          omega
        exact ih (li - c) (level + 1) hDl hgoal h
      · have hD : level + 1 = D := by omega
        have hm0 : massFrom A D (level + 1) = 0 := by
          rw [hD]
          exact massFrom_end A D
        have hx : D - (level + 1) = 0 := by omega
        rw [hx, pow_zero] at hinv hsplit
        omega

/-- All construction facts about a generator produced by `Generator.new`:
validity of the input, the stored counts, the matrix size, and the per-level
count/label characterization. -/
lemma new_matrix_facts (d : List Nat) (g : Generator)
    (h : Generator.new d = Except.ok g) :
    2 ≤ numPositive d ∧
    g.bucket_count = d.length ∧
    g.adjusted_bucket_count = (augOf d).length ∧
    g.level_label_matrix.length = ((augOf d).length + 1) * depthOf d ∧
    (∀ j, j < depthOf d →
      g.level_label_matrix.getD (j * ((augOf d).length + 1)) 0
        = levelCount (augOf d) (depthOf d) j ∧
      ∀ t, t < levelCount (augOf d) (depthOf d) j →
        g.level_label_matrix.getD (j * ((augOf d).length + 1) + 1 + t) 0
          = (levelLabels (augOf d) (depthOf d) j).getD t 0) := by
  obtain ⟨h2, hb, hadj, hm⟩ := new_ok_elim d g h
  obtain ⟨hlen, hchar⟩ := buildMatrix_spec (augOf d) (depthOf d)
  rw [hm]
  exact ⟨h2, hb, hadj, hlen, hchar⟩

/-! ## The claims -/

/-- C1: for every distribution with at least two strictly positive weights,
every generator built from it by `Generator.new`, and every coin-flip
sequence on which `sample` returns, the returned index lies in
`[0, bucket_count)` — in particular the virtual bucket's index
(`bucket_count`) is never returned (a virtual leaf restarts the traversal at
the root instead of being returned). -/
theorem fldr_c1_sample_range (d : List Nat) (g : Generator) (flips : List Bool)
    (i : Nat) (hg : Generator.new d = Except.ok g)
    (hs : g.sample flips = SampleResult.ok i) :
    i < g.bucket_count ∧ g.bucket_count = d.length := by
  obtain ⟨_, hb, _, _⟩ := new_ok_elim d g hg
  exact ⟨sampleLoop_ok_lt g flips 0 0 i hs, hb⟩

/-- Witness for C1 at the distribution `[1, 2]` with flip sequence `[false]`:
sampling returns index `1`, which is below `bucket_count = 2`. -/
theorem fldr_c1_sample_range_witness :
    (⟨2, 3, [1, 1, 0, 0, 2, 0, 2, 0]⟩ : Generator).sample [false]
        = SampleResult.ok 1 ∧
    1 < (⟨2, 3, [1, 1, 0, 0, 2, 0, 2, 0]⟩ : Generator).bucket_count ∧
    (⟨2, 3, [1, 1, 0, 0, 2, 0, 2, 0]⟩ : Generator).bucket_count = [1, 2].length :=
  ⟨rfl, fldr_c1_sample_range [1, 2] _ [false] 1 rfl rfl⟩

/-- C2 counterexample: at the empty distribution, construction does fail, but
the message it carries is the source's "The distribution must have at least
two non-zero weights." (capitalised, trailing full stop), not the claim's
quoted "the distribution must have at least two non-zero weights". -/
theorem fldr_c2_message_counterexample :
    Generator.new [] = Except.error (FldrError.invalidDistribution
      "The distribution must have at least two non-zero weights.") ∧
    "The distribution must have at least two non-zero weights."
      ≠ "the distribution must have at least two non-zero weights" :=
  ⟨rfl, by decide⟩

/-- C2 (amended): `Generator.new` fails with the invalid-distribution error
carrying the source's message "The distribution must have at least two
non-zero weights." exactly when fewer than two entries of the distribution
are strictly positive, and succeeds (returns a generator) exactly when at
least two entries are strictly positive. -/
theorem fldr_c2_validation (d : List Nat) :
    (Generator.new d = Except.error (FldrError.invalidDistribution
        "The distribution must have at least two non-zero weights.")
      ↔ numPositive d < 2) ∧
    ((∃ g, Generator.new d = Except.ok g) ↔ 2 ≤ numPositive d) := by
  unfold Generator.new
  by_cases h : 2 ≤ numPositive d
  · rw [if_pos h]
    refine ⟨⟨fun he => Except.noConfusion he, fun hlt => absurd h (by omega)⟩,
      ⟨fun _ => h, fun _ => ⟨_, rfl⟩⟩⟩
  · rw [if_neg h]
    refine ⟨⟨fun _ => by omega, fun _ => rfl⟩, ⟨?_, fun hh => absurd hh h⟩⟩
    rintro ⟨g, hg⟩
    exact Except.noConfusion hg

/-- C3: for every valid distribution and every level `j < depth`, the stored
leaf count of level `j` equals the number of indices of the augmented
sequence whose bit `(depth - j - 1)` is set, and the stored label list of
level `j` is exactly those indices, in strictly ascending order. -/
theorem fldr_c3_levels (d : List Nat) (g : Generator)
    (hg : Generator.new d = Except.ok g) :
    ∀ j, j < depthOf d →
      (∀ i, i ∈ levelLabels (augOf d) (depthOf d) j ↔
        i < (augOf d).length ∧
          0 < ((augOf d).getD i 0 >>> (depthOf d - j - 1)) &&& 1) ∧
      (levelLabels (augOf d) (depthOf d) j).Pairwise (· < ·) ∧
      g.level_label_matrix.getD (j * (g.adjusted_bucket_count + 1)) 0
        = (levelLabels (augOf d) (depthOf d) j).length ∧
      (∀ t, t < (levelLabels (augOf d) (depthOf d) j).length →
        g.level_label_matrix.getD (j * (g.adjusted_bucket_count + 1) + 1 + t) 0
          = (levelLabels (augOf d) (depthOf d) j).getD t 0) := by
  obtain ⟨h2, hb, hadj, hlen, hchar⟩ := new_matrix_facts d g hg
  intro j hj
  obtain ⟨hcnt, hlab⟩ := hchar j hj
  refine ⟨?_, ?_, ?_, ?_⟩
  · intro i
    simp [levelLabels, List.mem_filter, List.mem_range, bitAt]
  · exact (List.pairwise_lt_range _).filter _
  · rw [hadj]
    exact hcnt
  · intro t ht
    rw [hadj]
    exact hlab t ht

/-- Witness for C3 at `[1, 2]`, level `0`: the stored leaf count of level 0
equals the number of augmented weights with bit 1 set. -/
theorem fldr_c3_levels_witness :
    (⟨2, 3, [1, 1, 0, 0, 2, 0, 2, 0]⟩ : Generator).level_label_matrix.getD
        (0 * ((⟨2, 3, [1, 1, 0, 0, 2, 0, 2, 0]⟩ : Generator).adjusted_bucket_count
          + 1)) 0
      = (levelLabels (augOf [1, 2]) (depthOf [1, 2]) 0).length :=
  ((fldr_c3_levels [1, 2] _ rfl 0 (by decide)).2.2).1

/-- C4: for every valid distribution, if the weight sum is a power of two the
augmented sequence is the input unchanged and the adjusted bucket count
equals the bucket count; otherwise exactly one synthetic weight
`2 ^ depth - sum` is appended at index `bucket_count` and the adjusted
bucket count is `bucket_count + 1`.  In both cases the augmented sum is
exactly `2 ^ depth`. -/
theorem fldr_c4_augmentation (d : List Nat) (g : Generator)
    (hg : Generator.new d = Except.ok g) :
    (isPowTwo d.sum = true →
      augOf d = d ∧ g.adjusted_bucket_count = g.bucket_count) ∧
    (isPowTwo d.sum = false →
      augOf d = d ++ [2 ^ depthOf d - d.sum]
        ∧ g.adjusted_bucket_count = g.bucket_count + 1) ∧
    (augOf d).sum = 2 ^ depthOf d := by
  obtain ⟨h2, hb, hadj, _⟩ := new_ok_elim d g hg
  refine ⟨?_, ?_, sum_augOf d h2⟩
  · intro hp
    have ha := augOf_pow d hp
    exact ⟨ha, by rw [hadj, hb, ha]⟩
  · intro hp
    have ha := augOf_not_pow d hp
    refine ⟨ha, ?_⟩
    rw [hadj, hb, ha]
    simp

/-- Witness for C4 at `[1, 2]` (sum 3, not a power of two): the synthetic
weight 1 is appended and the augmented sum is `2 ^ 2`. -/
theorem fldr_c4_augmentation_witness :
    augOf [1, 2] = [1, 2] ++ [2 ^ depthOf [1, 2] - [1, 2].sum] ∧
    (⟨2, 3, [1, 1, 0, 0, 2, 0, 2, 0]⟩ : Generator).adjusted_bucket_count
      = (⟨2, 3, [1, 1, 0, 0, 2, 0, 2, 0]⟩ : Generator).bucket_count + 1 ∧
    (augOf [1, 2]).sum = 2 ^ depthOf [1, 2] := by
  have h := fldr_c4_augmentation [1, 2] ⟨2, 3, [1, 1, 0, 0, 2, 0, 2, 0]⟩ rfl
  exact ⟨(h.2.1 rfl).1, (h.2.1 rfl).2, h.2.2⟩

/-- C5: for every valid distribution with weight sum `sum`, the computed
depth equals `floor (log2 sum)` when `sum` is a power of two and
`floor (log2 sum) + 1` otherwise; equivalently, `depth` is the least number
of bits such that `2 ^ depth ≥ sum`. -/
theorem fldr_c5_depth (d : List Nat) (g : Generator)
    (hg : Generator.new d = Except.ok g) :
    depthOf d = Nat.log 2 d.sum + (if isPowTwo d.sum then 0 else 1) ∧
    d.sum ≤ 2 ^ depthOf d ∧
    ∀ k, d.sum ≤ 2 ^ k → depthOf d ≤ k := by
  obtain ⟨h2, _⟩ := new_ok_elim d g hg
  have hpos : 0 < d.sum := by
    have := two_le_sum d h2
    omega
  exact ⟨depthOf_eq d, sum_le_pow_depth d,
    fun k hk => depth_le_of_le_pow d hpos k hk⟩

/-- Witness for C5 at `[1, 2]`: the depth is `floor (log2 3) + 1 = 2` and
`2 ^ 2 ≥ 3`. -/
theorem fldr_c5_depth_witness :
    depthOf [1, 2] = Nat.log 2 [1, 2].sum
        + (if isPowTwo [1, 2].sum then 0 else 1) ∧
    [1, 2].sum ≤ 2 ^ depthOf [1, 2] := by
  have h := fldr_c5_depth [1, 2] ⟨2, 3, [1, 1, 0, 0, 2, 0, 2, 0]⟩ rfl
  exact ⟨h.1, h.2.1⟩

/-- C6: for every generator produced by `Generator.new` and every flip
sequence, sampling never reads `level_label_matrix` out of bounds: the
traversal never faults (the cursor level stays below `depth`, and at the last
level the label index always hits a leaf), so sampling cannot raise an error
for a well-formed generator. -/
theorem fldr_c6_no_fault (d : List Nat) (g : Generator) (flips : List Bool)
    (hg : Generator.new d = Except.ok g) :
    g.sample flips ≠ SampleResult.fault := by
  obtain ⟨h2, hb, hadj, hlen, hchar⟩ := new_matrix_facts d g hg
  have hmass : massFrom (augOf d) (depthOf d) 0 = 2 ^ depthOf d := by
    rw [massFrom_zero]
    exact mass_identity d h2
  have hd1 : 1 ≤ depthOf d := one_le_depth d h2
  have hcnt : ∀ j, j < depthOf d →
      g.level_label_matrix.getD (j * ((augOf d).length + 1)) 0
        = levelCount (augOf d) (depthOf d) j := fun j hj => (hchar j hj).1
  exact sampleLoop_no_fault g (augOf d) (depthOf d) hadj hlen hcnt hmass flips 0 0
    (by omega) (by simp [hmass])

/-- Witness for C6 at `[1, 2]` with flips `[true, true]` (a sequence that
reaches the virtual leaf and takes the back-edge): no fault occurs. -/
theorem fldr_c6_no_fault_witness :
    (⟨2, 3, [1, 1, 0, 0, 2, 0, 2, 0]⟩ : Generator).sample [true, true]
      ≠ SampleResult.fault :=
  fldr_c6_no_fault [1, 2] _ [true, true] rfl

/-- C7: for the distribution `[1, 1]` (sum 2, a power of two, depth 1, no
virtual bucket appended), sampling the generator with first flip `false`
returns index `0` and with first flip `true` returns index `1`, each after
consuming exactly the one flip (the remaining flips are never inspected). -/
theorem fldr_c7_onebit (g : Generator)
    (hg : Generator.new [1, 1] = Except.ok g) :
    isPowTwo [1, 1].sum = true ∧ depthOf [1, 1] = 1 ∧ augOf [1, 1] = [1, 1] ∧
    ∀ rest : List Bool,
      g.sample (false :: rest) = SampleResult.ok 0 ∧
      g.sample (true :: rest) = SampleResult.ok 1 := by
  have hgv : g = ⟨2, 2, [2, 0, 1]⟩ := by
    have hnew : Generator.new [1, 1]
        = Except.ok (⟨2, 2, [2, 0, 1]⟩ : Generator) := rfl
    rw [hnew] at hg
    injection hg with hg
    exact hg.symm
  subst hgv
  exact ⟨rfl, rfl, rfl, fun rest => ⟨rfl, rfl⟩⟩

/-- Witness for C7: the concrete generator for `[1, 1]` and the two
single-flip samples. -/
theorem fldr_c7_onebit_witness :
    Generator.new [1, 1] = Except.ok (⟨2, 2, [2, 0, 1]⟩ : Generator) ∧
    (⟨2, 2, [2, 0, 1]⟩ : Generator).sample [false] = SampleResult.ok 0 ∧
    (⟨2, 2, [2, 0, 1]⟩ : Generator).sample [true] = SampleResult.ok 1 :=
  ⟨rfl, ((fldr_c7_onebit _ rfl).2.2.2 []).1, ((fldr_c7_onebit _ rfl).2.2.2 []).2⟩

/-- C8 counterexample: the distribution `[2^63, 2^63, 1]` has true weight sum
`2^64 + 1`, which is not representable in the 64-bit working width, yet under
release-profile (wrapping) `usize` semantics `Generator::new` does not fail
with any overflow error: the sum wraps to `1` and construction succeeds,
returning a (corrupt) generator. -/
theorem fldr_c8_overflow_counterexample :
    2 ^ 64 ≤ [2 ^ 63, 2 ^ 63, 1].sum ∧
    sumWrap [2 ^ 63, 2 ^ 63, 1] = 1 ∧
    Generator.newWrap [2 ^ 63, 2 ^ 63, 1]
      = Except.ok (⟨3, 3, []⟩ : Generator) :=
  ⟨by decide, by rfl, by rfl⟩

/-- C8 (amended): `Generator::new` contains no overflow detection and no
`OverflowError` exists.  Under release-profile (wrapping) `usize` arithmetic,
a distribution whose true weight sum exceeds `2^64 - 1` can be accepted:
construction proceeds on the wrapped sum and returns a generator (here with
wrapped sum 1, depth 0, and an empty matrix) instead of failing before
sampling.  (Under the debug profile the overflowing addition is a panic
during summation; in neither profile is a recoverable overflow error value
produced.) -/
theorem fldr_c8_no_overflow_detection :
    ∃ d : List Nat, 2 ^ 64 ≤ d.sum ∧
      Generator.newWrap d = Except.ok (⟨3, 3, []⟩ : Generator) ∧
      sumWrap d = 1 :=
  ⟨[2 ^ 63, 2 ^ 63, 1], by decide, by rfl, by rfl⟩

/-- C9 counterexample: the valid distribution `[2, 2]` (sum 4, a power of
two, depth 2) yields a generator whose level 1 holds zero leaves: level 1
tests bit 0 of each weight and no weight has it set, so the stored leaf
count of level 1 is `0`, refuting the claim that every level `j < depth` has
a leaf count of at least one. -/
theorem fldr_c9_empty_level_counterexample :
    Generator.new [2, 2] = Except.ok (⟨2, 2, [2, 0, 1, 0, 0, 0]⟩ : Generator) ∧
    1 ≤ depthOf [2, 2] ∧ (1 : Nat) < depthOf [2, 2] ∧
    (⟨2, 2, [2, 0, 1, 0, 0, 0]⟩ : Generator).level_label_matrix.getD
      (1 * ((⟨2, 2, [2, 0, 1, 0, 0, 0]⟩ : Generator).adjusted_bucket_count + 1))
      0 = 0 :=
  ⟨rfl, by decide, by decide, rfl⟩

/-- C9 (amended): individual levels of the DDG tree may be empty (see the
`[2, 2]` counterexample); what the construction does guarantee for every
valid distribution is `depth ≥ 1` together with the mass identity over the
stored per-level leaf counts:
`Σ_{j < depth} count_j * 2 ^ (depth - 1 - j) = 2 ^ depth`. -/
theorem fldr_c9_level_mass (d : List Nat) (g : Generator)
    (hg : Generator.new d = Except.ok g) :
    1 ≤ depthOf d ∧
    ∑ j in Finset.range (depthOf d),
        g.level_label_matrix.getD (j * (g.adjusted_bucket_count + 1)) 0
          * 2 ^ (depthOf d - 1 - j)
      = 2 ^ depthOf d := by
  obtain ⟨h2, hb, hadj, hlen, hchar⟩ := new_matrix_facts d g hg
  refine ⟨one_le_depth d h2, ?_⟩
  have hcongr : ∑ j in Finset.range (depthOf d),
      g.level_label_matrix.getD (j * (g.adjusted_bucket_count + 1)) 0
        * 2 ^ (depthOf d - 1 - j)
    = ∑ j in Finset.range (depthOf d),
      levelCount (augOf d) (depthOf d) j * 2 ^ (depthOf d - 1 - j) :=
    Finset.sum_congr rfl (fun j hj => by
      rw [hadj, (hchar j (Finset.mem_range.mp hj)).1])
  rw [hcongr]
  exact mass_identity d h2

/-- Witness for the amended C9 at `[1, 2]`: the stored counts `[1, 2]` at
depth 2 satisfy `1 * 2 + 2 * 1 = 4 = 2 ^ 2`. -/
theorem fldr_c9_level_mass_witness :
    1 ≤ depthOf [1, 2] ∧
    ∑ j in Finset.range (depthOf [1, 2]),
        (⟨2, 3, [1, 1, 0, 0, 2, 0, 2, 0]⟩ : Generator).level_label_matrix.getD
            (j * ((⟨2, 3, [1, 1, 0, 0, 2, 0, 2, 0]⟩ : Generator).adjusted_bucket_count
              + 1)) 0
          * 2 ^ (depthOf [1, 2] - 1 - j)
      = 2 ^ depthOf [1, 2] :=
  fldr_c9_level_mass [1, 2] _ rfl

/-- C10: a zero-weight bucket is never sampled: for every valid distribution,
every index `i` with `distribution[i] = 0`, and every flip sequence on which
`sample` returns, the returned index differs from `i` — a zero weight
contributes no leaf to any level of the tree built by `Generator.new`. -/
theorem fldr_c10_zero_weight (d : List Nat) (g : Generator) (i : Nat)
    (flips : List Bool) (r : Nat)
    (hg : Generator.new d = Except.ok g)
    (hi : i < d.length) (hzero : d.getD i 0 = 0)
    (hs : g.sample flips = SampleResult.ok r) : r ≠ i := by
  obtain ⟨h2, hb, hadj, hlen, hchar⟩ := new_matrix_facts d g hg
  obtain ⟨lev, li, hbound, hcnt, hval⟩ := sampleLoop_ok_reads g flips 0 0 r hs
  rw [hadj] at hbound hcnt hval
  have hlev : lev < depthOf d := by
    by_contra hc
    push_neg at hc
    have h1 : depthOf d * ((augOf d).length + 1) ≤ lev * ((augOf d).length + 1) :=
      Nat.mul_le_mul_right _ hc
    rw [hlen] at hbound
    have h2m : ((augOf d).length + 1) * depthOf d
        = depthOf d * ((augOf d).length + 1) := Nat.mul_comm _ _
    omega
  obtain ⟨hcount_eq, hlab_eq⟩ := hchar lev hlev
  rw [hcount_eq] at hcnt
  have hval2 := hlab_eq li hcnt
  have hidx : lev * ((augOf d).length + 1) + li + 1
      = lev * ((augOf d).length + 1) + 1 + li := by omega
  rw [hidx, hval2] at hval
  intro hri
  rw [hri] at hval
  have hmem : (levelLabels (augOf d) (depthOf d) lev).getD li 0
      ∈ levelLabels (augOf d) (depthOf d) lev := getD_mem _ _ hcnt
  rw [hval] at hmem
  rw [levelLabels, List.mem_filter] at hmem
  obtain ⟨hmemr, hpred⟩ := hmem
  rw [augOf_getD_left d i hi, hzero] at hpred
  simp [bitAt] at hpred

/-- Witness for C10 at `[1, 0, 2]` (bucket 1 has weight 0) with flips
`[true, false]`: sampling returns 0, which differs from the zero-weight
index 1. -/
theorem fldr_c10_zero_weight_witness :
    (⟨3, 4, [1, 2, 0, 0, 0, 2, 0, 3, 0, 0]⟩ : Generator).sample [true, false]
      = SampleResult.ok 0 ∧
    [1, 0, 2].getD 1 0 = 0 ∧ (0 : Nat) ≠ 1 :=
  ⟨rfl, rfl,
    fldr_c10_zero_weight [1, 0, 2] _ 1 [true, false] 0 rfl (by decide) rfl rfl⟩
